import Mathlib

/-!
# Verification of the IFF picture loader (WIN32LIB/IFF/LOADPICT.CPP)

Shallow embedding of the Westwood Library IFF picture loader:

* the ByteRun (PackBits-style) scanline decompression loop inside
  `Load_Picture` (LOADPICT.CPP lines 459-520),
* the bitplane deinterleaver `ILBM_To_MCGA` (lines 139-185),
* the BMHD header decoding performed on the IBM host (lines 373-389),
* the orchestration of `Load_Picture` itself (lines 330-552).

Bytes are modelled as `Nat` with explicit `% 256` where the C types are
8-bit; the signed decompression control byte and the row budget counter
are modelled as `Int`, matching the C `signed char` / `int` arithmetic.
-/

namespace LoadPict

/-- The value of `(signed char) b` for a byte `b` of the input stream
(the decompression code read at LOADPICT.CPP line 477). -/
def toSigned (b : Nat) : Int :=
  if b % 256 < 128 then (b % 256 : Int) else (b % 256 : Int) - 256

/-- One scanline of the ByteRun decompression loop of `Load_Picture`
(LOADPICT.CPP lines 475-510), with `masking = bmhd.Masking` and
`thresh = bmhd.W >> 3`.  The C loop `while (counter)` reads at least one
input byte per iteration, so `src.length` steps of fuel are enough to
reproduce it; `none` models the loop reading past the end of the
available input (which in C walks off the buffer).  The result is the
list of bytes written through `dest` together with the unread input. -/
def decompLoop (masking : Nat) (thresh : Int) :
    Nat → List Nat → Int → Option (List Nat × List Nat)
  | 0, src, counter => if counter = 0 then some ([], src) else none
  | fuel + 1, src, counter =>
    if counter = 0 then some ([], src)
    else
      match src with
      | [] => none
      | v :: rest =>
        if toSigned v = -128 then
          -- NOOP code: `continue`.
          decompLoop masking thresh fuel rest counter
        else if 0 ≤ toSigned v then
          -- Literal run: copy N+1 bytes.
          if (toSigned v).toNat + 1 ≤ rest.length then
            Option.map
              (fun pr =>
                (if masking ≠ 1 ∨ thresh < counter then
                    rest.take ((toSigned v).toNat + 1) ++ pr.1
                  else pr.1, pr.2))
              (decompLoop masking thresh fuel
                (rest.drop ((toSigned v).toNat + 1))
                (counter - (((toSigned v).toNat : Int) + 1)))
          else none
        else
          -- Replicate run: read one value byte, write it -N+1 times.
          match rest with
          | [] => none
          | b :: rest2 =>
            Option.map
              (fun pr =>
                (if masking ≠ 1 ∨ thresh < counter then
                    List.replicate ((-toSigned v).toNat + 1) b ++ pr.1
                  else pr.1, pr.2))
              (decompLoop masking thresh fuel rest2
                (counter - (((-toSigned v).toNat : Int) + 1)))

/-- Decompression of one scanline: the loop run with enough fuel for the
whole remaining input. -/
def decompressRow (masking : Nat) (thresh : Int) (src : List Nat)
    (counter : Int) : Option (List Nat × List Nat) :=
  decompLoop masking thresh src.length src counter

/-- The behaviour of `decompLoop` does not depend on the fuel as long as the
fuel covers the remaining input (each iteration consumes at least one input
byte, matching the C loop). -/
theorem decompLoop_fuel (masking : Nat) (thresh : Int) :
    ∀ (f1 : Nat) (f2 : Nat) (src : List Nat) (c : Int),
      src.length ≤ f1 → src.length ≤ f2 →
      decompLoop masking thresh f1 src c = decompLoop masking thresh f2 src c := by
  intro f1
  induction f1 with
  | zero =>
    intro f2 src c h1 h2
    have hsrc : src = [] := List.eq_nil_of_length_eq_zero (Nat.le_zero.mp h1)
    subst hsrc
    cases f2 with
    | zero => rfl
    | succ f2 => simp [decompLoop]
  | succ f1 ih =>
    intro f2 src c h1 h2
    cases f2 with
    | zero =>
      have hsrc : src = [] := List.eq_nil_of_length_eq_zero (Nat.le_zero.mp h2)
      subst hsrc
      simp [decompLoop]
    | succ f2 =>
      cases src with
      | nil => simp [decompLoop]
      | cons v rest =>
        simp only [List.length_cons, Nat.add_le_add_iff_right] at h1 h2
        by_cases hc : c = 0
        · simp [decompLoop, hc]
        · by_cases h128 : toSigned v = -128
          · simp only [decompLoop, hc, h128, if_false, if_true, if_pos, if_neg]
            exact ih f2 rest c h1 h2
          · by_cases hpos : 0 ≤ toSigned v
            · by_cases hlen : (toSigned v).toNat + 1 ≤ rest.length
              · simp only [decompLoop, hc, h128, hpos, hlen, if_false, if_true, if_pos, if_neg]
                rw [ih f2 (rest.drop ((toSigned v).toNat + 1))
                  (c - (((toSigned v).toNat : Int) + 1))
                  (le_trans (List.length_drop _ _ ▸ Nat.sub_le _ _) h1)
                  (le_trans (List.length_drop _ _ ▸ Nat.sub_le _ _) h2)]
              · simp [decompLoop, hc, h128, hpos, hlen]
            · cases rest with
              | nil => simp [decompLoop, hc, h128, hpos]
              | cons b rest2 =>
                simp only [List.length_cons, Nat.add_le_add_iff_right] at h1 h2
                simp only [decompLoop, hc, h128, hpos, if_false, if_true, if_pos, if_neg]
                rw [ih f2 rest2 (c - (((-toSigned v).toNat : Int) + 1))
                  (le_trans (Nat.le_succ _) h1) (le_trans (Nat.le_succ _) h2)]

/-- Unfolding of `decompressRow` for a NOOP control byte (`-128`): only the
input cursor advances. -/
theorem decompressRow_noop (masking : Nat) (thresh c : Int) (v : Nat)
    (rest : List Nat) (hc : c ≠ 0) (hv : toSigned v = -128) :
    decompressRow masking thresh (v :: rest) c
      = decompressRow masking thresh rest c := by
  unfold decompressRow
  rw [show (v :: rest).length = rest.length + 1 from rfl]
  simp only [decompLoop, hc, hv, if_false, if_true, if_pos, if_neg]

/-- Unfolding of `decompressRow` for a literal run (control byte `≥ 0`). -/
theorem decompressRow_literal (masking : Nat) (thresh c : Int) (v : Nat)
    (rest : List Nat) (hc : c ≠ 0) (hpos : 0 ≤ toSigned v)
    (hlen : (toSigned v).toNat + 1 ≤ rest.length) :
    decompressRow masking thresh (v :: rest) c
      = Option.map
          (fun pr =>
            (if masking ≠ 1 ∨ thresh < c then
                rest.take ((toSigned v).toNat + 1) ++ pr.1
              else pr.1, pr.2))
          (decompressRow masking thresh (rest.drop ((toSigned v).toNat + 1))
            (c - (((toSigned v).toNat : Int) + 1))) := by
  have h128 : toSigned v ≠ -128 := by omega
  unfold decompressRow
  rw [show (v :: rest).length = rest.length + 1 from rfl]
  simp only [decompLoop, hc, h128, hpos, hlen, if_false, if_true, if_pos, if_neg]
  rw [decompLoop_fuel masking thresh rest.length (rest.drop ((toSigned v).toNat + 1)).length
    (rest.drop ((toSigned v).toNat + 1)) _
    (List.length_drop _ _ ▸ Nat.sub_le _ _) (le_refl _)]

/-- Unfolding of `decompressRow` for a replicate run (control byte `< 0`,
not `-128`): the input cursor advances only past the single value byte. -/
theorem decompressRow_replicate (masking : Nat) (thresh c : Int) (v b : Nat)
    (rest2 : List Nat) (hc : c ≠ 0) (hneg : toSigned v < 0)
    (h128 : toSigned v ≠ -128) :
    decompressRow masking thresh (v :: b :: rest2) c
      = Option.map
          (fun pr =>
            (if masking ≠ 1 ∨ thresh < c then
                List.replicate ((-toSigned v).toNat + 1) b ++ pr.1
              else pr.1, pr.2))
          (decompressRow masking thresh rest2
            (c - (((-toSigned v).toNat : Int) + 1))) := by
  have hpos : ¬ (0 ≤ toSigned v) := by omega
  unfold decompressRow
  rw [show (v :: b :: rest2).length = rest2.length + 1 + 1 from rfl]
  rw [decompLoop_fuel masking thresh rest2.length (rest2.length + 1) rest2
    (c - (((-toSigned v).toNat : Int) + 1)) (le_refl _) (Nat.le_succ _)]
  simp only [decompLoop, hc, h128, hpos, if_false, if_true, if_pos, if_neg]

/-- `toSigned` on a byte below 128 is the byte itself. -/
theorem toSigned_of_lt (v : Nat) (h : v < 128) : toSigned v = (v : Int) := by
  have hm : v % 256 < 128 := by omega
  simp only [toSigned, hm, if_true, if_pos]
  omega

/-- `toSigned` on a byte in `129..255` is the byte minus 256. -/
theorem toSigned_of_gt (v : Nat) (h1 : 128 < v) (h2 : v < 256) :
    toSigned v = (v : Int) - 256 := by
  have hm : ¬ v % 256 < 128 := by omega
  simp only [toSigned, hm, if_false, if_neg]
  omega

/-- C1: ByteRun body decompression interprets each control byte of a row as
follows.  A control byte equal to `-128` (raw byte 128) is a no-op that only
advances the input cursor; a control byte `c ≥ 0` (raw byte `v < 128`)
copies the next `c + 1` input bytes verbatim to the output, advances the
input cursor past them and reduces the remaining budget by `c + 1`; a
control byte `c < 0` (raw byte `128 < v < 256`, `c = v - 256`) reads one
value byte and writes it `(-c) + 1 = 257 - v` times to the output, reduces
the budget by that amount, and advances the input cursor only past the
single value byte.  (Stated away from the mask-discard special case,
`masking ≠ 1`, which claims C3/C10 treat.) -/
theorem byteRun_control_semantics (masking : Nat) (thresh c : Int) (v b : Nat)
    (rest : List Nat) (hm : masking ≠ 1) (hc : c ≠ 0) :
    (decompressRow masking thresh (128 :: rest) c
        = decompressRow masking thresh rest c)
    ∧ (v < 128 → v + 1 ≤ rest.length →
        decompressRow masking thresh (v :: rest) c
          = Option.map (fun pr => (rest.take (v + 1) ++ pr.1, pr.2))
              (decompressRow masking thresh (rest.drop (v + 1)) (c - ((v : Int) + 1))))
    ∧ (128 < v → v < 256 →
        decompressRow masking thresh (v :: b :: rest) c
          = Option.map (fun pr => (List.replicate (257 - v) b ++ pr.1, pr.2))
              (decompressRow masking thresh rest (c - (257 - (v : Int))))) := by
  refine ⟨?_, ?_, ?_⟩
  · exact decompressRow_noop masking thresh c 128 rest hc (by decide)
  · intro hv hlen
    have hts : toSigned v = (v : Int) := toSigned_of_lt v hv
    have htn : (toSigned v).toNat = v := by rw [hts]; exact Int.toNat_natCast v
    rw [decompressRow_literal masking thresh c v rest hc
      (by rw [hts]; exact Int.natCast_nonneg v) (by rw [htn]; exact hlen)]
    simp only [htn, if_pos (Or.inl hm : masking ≠ 1 ∨ thresh < c)]
  · intro h1 h2
    have hts : toSigned v = (v : Int) - 256 := toSigned_of_gt v h1 h2
    have hneg : toSigned v < 0 := by omega
    have h128 : toSigned v ≠ -128 := by omega
    have htn : (-toSigned v).toNat + 1 = 257 - v := by omega
    have hci : (((-toSigned v).toNat : Int) + 1) = 257 - (v : Int) := by omega
    rw [decompressRow_replicate masking thresh c v b rest hc hneg h128]
    rw [hci]
    simp only [htn, if_pos (Or.inl hm : masking ≠ 1 ∨ thresh < c)]

/-- Witness for C1: the three control-byte behaviours at concrete inputs. -/
theorem byteRun_control_semantics_witness :
    (decompressRow 0 0 (128 :: [0, 7]) 5 = decompressRow 0 0 [0, 7] 5)
    ∧ (decompressRow 0 0 (2 :: [3, 4, 5]) 5
        = Option.map (fun pr => ([3, 4, 5].take (2 + 1) ++ pr.1, pr.2))
            (decompressRow 0 0 ([3, 4, 5].drop (2 + 1)) (5 - ((2 : Int) + 1))))
    ∧ (decompressRow 0 0 (254 :: 9 :: [1]) 5
        = Option.map (fun pr => (List.replicate (257 - 254) 9 ++ pr.1, pr.2))
            (decompressRow 0 0 [1] (5 - (257 - (254 : Int))))) :=
  ⟨(byteRun_control_semantics 0 0 5 0 0 [0, 7] (by decide) (by decide)).1,
   (byteRun_control_semantics 0 0 5 2 9 [3, 4, 5] (by decide) (by decide)).2.1
     (by decide) (by decide),
   (byteRun_control_semantics 0 0 5 254 9 [1] (by decide) (by decide)).2.2
     (by decide) (by decide)⟩

/-- C10: with `masking = HasMask (1)`, the write-or-discard decision for a
run is taken once, at the run's control byte, from the remaining row budget
alone: the run is written iff the remaining budget `c` exceeds the mask
threshold `width/8` at that moment.  The appended chunk is the whole run or
nothing — in particular a run that starts before the mask boundary but
extends past it is written in its entirety, a run starting at or inside the
mask region is dropped in its entirety, and runs are never split. -/
theorem mask_run_decision (thresh c : Int) (v b : Nat) (rest : List Nat)
    (hc : c ≠ 0) :
    (v < 128 → v + 1 ≤ rest.length →
        decompressRow 1 thresh (v :: rest) c
          = Option.map
              (fun pr => ((if thresh < c then rest.take (v + 1) else []) ++ pr.1, pr.2))
              (decompressRow 1 thresh (rest.drop (v + 1)) (c - ((v : Int) + 1))))
    ∧ (128 < v → v < 256 →
        decompressRow 1 thresh (v :: b :: rest) c
          = Option.map
              (fun pr => ((if thresh < c then List.replicate (257 - v) b else []) ++ pr.1, pr.2))
              (decompressRow 1 thresh rest (c - (257 - (v : Int))))) := by
  constructor
  · intro hv hlen
    have hts : toSigned v = (v : Int) := toSigned_of_lt v hv
    have htn : (toSigned v).toNat = v := by rw [hts]; exact Int.toNat_natCast v
    rw [decompressRow_literal 1 thresh c v rest hc
      (by rw [hts]; exact Int.natCast_nonneg v) (by rw [htn]; exact hlen)]
    by_cases ht : thresh < c <;> simp [htn, ht]
  · intro h1 h2
    have hts : toSigned v = (v : Int) - 256 := toSigned_of_gt v h1 h2
    have hneg : toSigned v < 0 := by omega
    have h128 : toSigned v ≠ -128 := by omega
    have htn : (-toSigned v).toNat + 1 = 257 - v := by omega
    have hci : (((-toSigned v).toNat : Int) + 1) = 257 - (v : Int) := by omega
    rw [decompressRow_replicate 1 thresh c v b rest hc hneg h128]
    rw [hci]
    by_cases ht : thresh < c <;> simp [htn, ht]

/-- Witness for C10: a replicate run straddling the mask boundary
(`thresh = 1`, budget 2, run length 2) is written in its entirety, and a
literal run starting at the boundary (budget 1) is dropped in its
entirety. -/
theorem mask_run_decision_witness :
    (decompressRow 1 1 (255 :: 5 :: []) 2
        = Option.map
            (fun pr => ((if (1 : Int) < 2 then List.replicate (257 - 255) 5 else []) ++ pr.1, pr.2))
            (decompressRow 1 1 [] (2 - (257 - (255 : Int)))))
    ∧ (decompressRow 1 1 (0 :: [7]) 1
        = Option.map
            (fun pr => ((if (1 : Int) < 1 then [7].take (0 + 1) else []) ++ pr.1, pr.2))
            (decompressRow 1 1 ([7].drop (0 + 1)) (1 - ((0 : Int) + 1)))) :=
  ⟨(mask_run_decision 1 2 255 5 [] (by decide)).2 (by decide) (by decide),
   (mask_run_decision 1 1 0 5 [7] (by decide)).1 (by decide) (by decide)⟩

/-- C3, counterexample: with `masking = HasMask`, `BPlanes = 1` and
`W = 8` (so the row budget is `1*(8/8) + 8/8 = 2` and the mask threshold is
`8/8 = 1`), the single replicate run `[0xFF, 5]` of length 2 starts before
the mask boundary, so the loop writes both of its bytes even though the
second decoded byte falls inside the final `W/8` bytes of the budget: the
row's output has 2 bytes, not `BPlanes * (W/8) = 1`, refuting the claim
that the per-row output length equals `BPlanes * (W/8)` regardless of the
mask plane. -/
theorem mask_discard_straddling_run_cex :
    decompressRow 1 (8 / 8) [255, 5] (1 * (8 / 8) + 8 / 8) = some ([5, 5], [])
    ∧ [5, 5].length ≠ 1 * (8 / 8) := by decide

/-- Side condition for the amended mask-discard claim: within one scanline,
no run whose control byte is seen with remaining budget above the mask
threshold (and which is therefore written) extends past the mask-plane
boundary. -/
def runsAligned (thresh : Int) : Nat → List Nat → Int → Bool
  | 0, _, _ => true
  | fuel + 1, src, counter =>
    if counter = 0 then true
    else
      match src with
      | [] => true
      | v :: rest =>
        if toSigned v = -128 then runsAligned thresh fuel rest counter
        else if 0 ≤ toSigned v then
          decide (thresh < counter → (((toSigned v).toNat : Int) + 1) ≤ counter - thresh)
            && runsAligned thresh fuel (rest.drop ((toSigned v).toNat + 1))
                (counter - (((toSigned v).toNat : Int) + 1))
        else
          match rest with
          | [] => true
          | _ :: rest2 =>
            decide (thresh < counter → (((-toSigned v).toNat : Int) + 1) ≤ counter - thresh)
              && runsAligned thresh fuel rest2
                  (counter - (((-toSigned v).toNat : Int) + 1))

/-- When no written run straddles the mask boundary, a successful scanline
decompression writes exactly `counter - thresh` bytes. -/
theorem aligned_length_loop (thresh : Int) (ht : 0 ≤ thresh) :
    ∀ (fuel : Nat) (src : List Nat) (c : Int) (out rem : List Nat),
      decompLoop 1 thresh fuel src c = some (out, rem) →
      runsAligned thresh fuel src c = true →
      out.length = (c - thresh).toNat := by
  intro fuel
  induction fuel with
  | zero =>
    intro src c out rem h ha
    simp only [decompLoop] at h
    by_cases hc : c = 0
    · rw [if_pos hc] at h
      cases h
      simp
      omega
    · rw [if_neg hc] at h
      cases h
  | succ fuel ih =>
    intro src c out rem h ha
    by_cases hc : c = 0
    · simp only [decompLoop, if_pos hc] at h
      cases h
      simp
      omega
    · cases src with
      | nil => simp [decompLoop, hc] at h
      | cons v rest =>
        simp only [decompLoop, if_neg hc] at h
        simp only [runsAligned, if_neg hc] at ha
        by_cases h128 : toSigned v = -128
        · rw [if_pos h128] at h ha
          exact ih rest c out rem h ha
        · rw [if_neg h128] at h ha
          by_cases hpos : 0 ≤ toSigned v
          · rw [if_pos hpos] at h ha
            by_cases hlen : (toSigned v).toNat + 1 ≤ rest.length
            · rw [if_pos hlen] at h
              rw [Bool.and_eq_true] at ha
              obtain ⟨ha1, ha2⟩ := ha
              have hcond := of_decide_eq_true ha1
              obtain ⟨⟨out2, rem2⟩, hrec, heq⟩ := Option.map_eq_some'.mp h
              simp only [ne_eq, not_true_eq_false, false_or, Prod.mk.injEq] at heq
              obtain ⟨hout, hrem⟩ := heq
              subst hout
              have hlen2 := ih _ _ _ _ hrec ha2
              by_cases hth : thresh < c
              · rw [if_pos hth]
                rw [List.length_append, List.length_take]
                omega
              · rw [if_neg hth]
                omega
            · rw [if_neg hlen] at h
              cases h
          · rw [if_neg hpos] at h ha
            cases rest with
            | nil => cases h
            | cons b rest2 =>
              rw [Bool.and_eq_true] at ha
              obtain ⟨ha1, ha2⟩ := ha
              have hcond := of_decide_eq_true ha1
              obtain ⟨⟨out2, rem2⟩, hrec, heq⟩ := Option.map_eq_some'.mp h
              simp only [ne_eq, not_true_eq_false, false_or, Prod.mk.injEq] at heq
              obtain ⟨hout, hrem⟩ := heq
              subst hout
              have hlen2 := ih _ _ _ _ hrec ha2
              by_cases hth : thresh < c
              · rw [if_pos hth]
                rw [List.length_append, List.length_replicate]
                omega
              · rw [if_neg hth]
                omega

/-- C3, amended: with `masking = HasMask`, the per-row input budget is
`BPlanes*(W/8)` plus one extra `W/8` mask plane; a run whose control byte
is seen with remaining budget at or below `W/8` is consumed from the input
and budget but not written, and — provided no written run extends past the
mask-plane boundary (`runsAligned`) — the number of bytes written to the
output per row is exactly `counter - thresh`, i.e. `BPlanes * (W/8)` for
the full row budget, regardless of the mask plane's content. -/
theorem mask_discard_aligned (thresh c : Int) (src out rem : List Nat)
    (ht : 0 ≤ thresh)
    (h : decompressRow 1 thresh src c = some (out, rem))
    (ha : runsAligned thresh src.length src c = true) :
    out.length = (c - thresh).toNat :=
  aligned_length_loop thresh ht src.length src c out rem h ha

/-- Witness for the amended C3: `BPlanes = 1`, `W = 8` (budget 2, threshold
1); the first literal run is written, the second falls at the mask boundary
and is dropped; exactly `1 = BPlanes * (W/8)` byte is written. -/
theorem mask_discard_aligned_witness :
    (0 : Int) ≤ 1
    ∧ decompressRow 1 1 [0, 7, 0, 9] 2 = some ([7], [])
    ∧ runsAligned 1 [0, 7, 0, 9].length [0, 7, 0, 9] 2 = true
    ∧ [7].length = ((2 : Int) - 1).toNat :=
  ⟨by decide, by decide, by decide,
   mask_discard_aligned 1 2 [0, 7, 0, 9] [7] [] (by decide) (by decide) (by decide)⟩

/-- C4: the legacy loop does not reject a run that overshoots the row
budget.  With a budget of 2, the literal run `[0x01, 10, 20]` is consumed
exactly and the loop stops; with a budget of 1 the same run overshoots —
`counter` becomes `-1`, the C condition `while (counter)` remains true, and
the loop keeps consuming input instead of rejecting the row (here modelled
by the decompression running off the end of the input, `none`), even when
further control bytes follow. -/
theorem byteRun_overshoot_not_rejected :
    decompressRow 0 1 [1, 10, 20] 2 = some ([10, 20], [])
    ∧ decompressRow 0 1 [1, 10, 20] 1 = none
    ∧ decompressRow 0 1 [1, 10, 20, 255, 9] 1 = none := by decide

/-- 16-bit value of two stream bytes read big-endian. -/
def be16 (b0 b1 : Nat) : Nat := b0 % 256 * 256 + b1 % 256

/-- 16-bit value of two stream bytes as read by the little-endian IBM host
when the header record is overlaid on the `BitMapHeader_Type` struct. -/
def le16 (b0 b1 : Nat) : Nat := b0 % 256 + 256 * (b1 % 256)

/-- `Reverse_Short`: exchange the two bytes of a 16-bit value. -/
def Reverse_Short (x : Nat) : Nat := x % 256 * 256 + x / 256 % 256

/-- Byte `i` of a chunk payload (a `char` read, hence `% 256`). -/
def byteAt (b : List Nat) (i : Nat) : Nat := b.getD i 0 % 256

/-- The BMHD chunk record (LOADPICT.CPP lines 82-100); every field is kept
as its 16- or 8-bit pattern. -/
structure BitMapHeader_Type where
  W : Nat
  H : Nat
  X : Nat
  Y : Nat
  BPlanes : Nat
  Masking : Nat
  Compression : Nat
  pad : Nat
  Transparent : Nat
  XAspect : Nat
  YAspect : Nat
  PageWidth : Nat
  PageHeight : Nat
  deriving DecidableEq

/-- The header record as the IBM host reads the 20 payload bytes into the
packed struct: multi-byte fields are little-endian reads. -/
def readHeaderRaw (b : List Nat) : BitMapHeader_Type :=
  { W := le16 (byteAt b 0) (byteAt b 1)
    H := le16 (byteAt b 2) (byteAt b 3)
    X := le16 (byteAt b 4) (byteAt b 5)
    Y := le16 (byteAt b 6) (byteAt b 7)
    BPlanes := byteAt b 8
    Masking := byteAt b 9
    Compression := byteAt b 10
    pad := byteAt b 11
    Transparent := le16 (byteAt b 12) (byteAt b 13)
    XAspect := byteAt b 14
    YAspect := byteAt b 15
    PageWidth := le16 (byteAt b 16) (byteAt b 17)
    PageHeight := le16 (byteAt b 18) (byteAt b 19) }

/-- The IBM-host conversions applied to the raw header by `Load_Picture`
(LOADPICT.CPP lines 373-389): `Reverse_Short` on `W, H, X, Y, PageWidth,
PageHeight`, an exchange of the two aspect bytes, and nothing else — in
particular nothing is done to `Transparent`. -/
def decodeHeaderIBM (b : List Nat) : BitMapHeader_Type :=
  let raw := readHeaderRaw b
  { raw with
    W := Reverse_Short raw.W
    H := Reverse_Short raw.H
    X := Reverse_Short raw.X
    Y := Reverse_Short raw.Y
    XAspect := raw.YAspect
    YAspect := raw.XAspect
    PageWidth := Reverse_Short raw.PageWidth
    PageHeight := Reverse_Short raw.PageHeight }

/-- Byte-swapping a little-endian read recovers the big-endian value. -/
theorem reverseShort_le16 (lo hi : Nat) :
    Reverse_Short (le16 lo hi) = be16 lo hi := by
  unfold Reverse_Short le16 be16
  omega

/-- C7, counterexample: the transparent-color index is NOT byte-order
corrected.  For a header whose `Transparent` stream bytes are `[1, 0]`
(big-endian value 256), the decoded field keeps the little-endian struct
read 1, so the claim that every multi-byte numeric field including the
transparent index is corrected from big-endian to host order fails. -/
theorem header_transparent_not_corrected_cex :
    (decodeHeaderIBM
        [0, 8, 0, 1, 0, 0, 0, 0, 1, 0, 1, 0, 1, 0, 10, 20, 1, 64, 0, 200]).Transparent
      = 1
    ∧ be16 1 0 = 256
    ∧ (decodeHeaderIBM
        [0, 8, 0, 1, 0, 0, 0, 0, 1, 0, 1, 0, 1, 0, 10, 20, 1, 64, 0, 200]).Transparent
      ≠ be16 1 0 := by decide

/-- C7, amended: header decoding on the IBM host exchanges the values of
the two single-byte aspect-ratio fields with each other (decoded `XAspect`
is the stream's `YAspect` byte at offset 15, and vice versa), and
byte-order-corrects the multi-byte fields width, height, origin x/y and
page width/height from big-endian to host order — but not the
transparent-color index, which keeps the raw little-endian struct read of
its two stream bytes. -/
theorem header_decode_byteorder (b : List Nat) :
    (decodeHeaderIBM b).W = be16 (byteAt b 0) (byteAt b 1)
    ∧ (decodeHeaderIBM b).H = be16 (byteAt b 2) (byteAt b 3)
    ∧ (decodeHeaderIBM b).X = be16 (byteAt b 4) (byteAt b 5)
    ∧ (decodeHeaderIBM b).Y = be16 (byteAt b 6) (byteAt b 7)
    ∧ (decodeHeaderIBM b).XAspect = byteAt b 15
    ∧ (decodeHeaderIBM b).YAspect = byteAt b 14
    ∧ (decodeHeaderIBM b).PageWidth = be16 (byteAt b 16) (byteAt b 17)
    ∧ (decodeHeaderIBM b).PageHeight = be16 (byteAt b 18) (byteAt b 19)
    ∧ (decodeHeaderIBM b).Transparent = le16 (byteAt b 12) (byteAt b 13) := by
  simp [decodeHeaderIBM, readHeaderRaw, reverseShort_le16]

/-- Top bit (bit 7) of a byte: the test `bytes[bplane] & 0x80`. -/
def topBit (b : Nat) : Nat := b / 128 % 2

/-- The pixel-composition loop of `ILBM_To_MCGA` (LOADPICT.CPP lines
173-177): for `bplane` from `planes - 1` down to 0, `value <<= 1` and the
top bit of the plane byte is or-ed in, so the highest-indexed plane lands
in the most significant bit. -/
def composeVal (bytes : Nat → Nat) : Nat → Nat → Nat
  | 0, v => v
  | p + 1, v => composeVal bytes p (v * 2 + topBit (bytes p))

/-- `bytes[bplane] <<= 1` on every gathered plane byte (8-bit `char`). -/
def shiftBytes (bytes : Nat → Nat) : Nat → Nat := fun p => bytes p * 2 % 256

/-- The roll-out loop of `ILBM_To_MCGA` (lines 169-179): emit 8 pixel
bytes, shifting every plane byte left once after each pixel. -/
def rollBits : (Nat → Nat) → Nat → Nat → List Nat
  | _, _, 0 => []
  | bytes, planes, i + 1 =>
    composeVal bytes planes 0 :: rollBits (shiftBytes bytes) planes i

/-- One group of 8 horizontal pixels (lines 159-180): gather one byte from
each bitplane at offsets `bplane * 40` from the group's base position, then
roll the bits out. -/
def ilbmGroup (src : Nat → Nat) (planes pos : Nat) : List Nat :=
  rollBits (fun p => src (pos + p * 40) % 256) planes 8

/-- One scanline of `ILBM_To_MCGA`: 40 groups of 8 pixels. -/
def ilbmRow (src : Nat → Nat) (planes base : Nat) : List Nat :=
  (List.range 40).flatMap fun j => ilbmGroup src planes (base + j)

/-- `ILBM_To_MCGA` (LOADPICT.CPP lines 139-185): 200 rows with hardcoded
row width 40 bytes per plane (`40 /*(bmhd.W>>3)*/` and
`200 /*bmhd.H*/` in the source), the source cursor advancing `40 * planes`
bytes per row (40 inside the group loop plus `40 * (planes - 1)` at line
183). -/
def ILBM_To_MCGA (src : Nat → Nat) (planes : Nat) : List Nat :=
  (List.range 200).flatMap fun r => ilbmRow src planes (r * (40 * planes))

/-- The roll-out loop always emits exactly `k` pixel bytes. -/
theorem length_rollBits : ∀ (k : Nat) (bytes : Nat → Nat) (planes : Nat),
    (rollBits bytes planes k).length = k := by
  intro k
  induction k with
  | zero => intro bytes planes; rfl
  | succ k ih =>
    intro bytes planes
    simp [rollBits, ih]

/-- Every scanline of `ILBM_To_MCGA` writes exactly 320 pixel bytes. -/
theorem ilbmRow_length (src : Nat → Nat) (planes base : Nat) :
    (ilbmRow src planes base).length = 320 := by
  unfold ilbmRow ilbmGroup
  rw [List.length_flatMap,
    show (List.length ∘ fun j => rollBits (fun p => src (base + j + p * 40) % 256) planes 8)
        = fun j => 8 from funext fun j => length_rollBits 8 _ planes,
    List.map_const', List.sum_replicate, List.length_range, smul_eq_mul]

/-- `ILBM_To_MCGA` always writes exactly `320 * 200 = 64000` pixel bytes,
whatever the source bytes and plane count. -/
theorem ILBM_To_MCGA_length (src : Nat → Nat) (planes : Nat) :
    (ILBM_To_MCGA src planes).length = 64000 := by
  unfold ILBM_To_MCGA
  rw [List.length_flatMap,
    show (List.length ∘ fun r => ilbmRow src planes (r * (40 * planes)))
        = fun r => 320 from funext fun r => ilbmRow_length src planes _,
    List.map_const', List.sum_replicate, List.length_range, smul_eq_mul]

/-- The descending or-in loop computes the weighted bit sum: plane `p`
contributes its top bit at weight `2^p`. -/
theorem composeVal_eq (bytes : Nat → Nat) :
    ∀ (n : Nat) (v : Nat),
      composeVal bytes n v
        = v * 2 ^ n + ((List.range n).map fun p => topBit (bytes p) * 2 ^ p).sum := by
  intro n
  induction n with
  | zero => intro v; simp [composeVal]
  | succ n ih =>
    intro v
    rw [composeVal, ih, List.range_succ, List.map_append, List.sum_append]
    simp [pow_succ]
    ring

/-- `composeVal` only depends on the values of the gathered bytes. -/
theorem composeVal_congr (f g : Nat → Nat) (h : ∀ p, f p = g p) :
    ∀ (n : Nat) (v : Nat), composeVal f n v = composeVal g n v := by
  intro n
  induction n with
  | zero => intro v; rfl
  | succ n ih =>
    intro v
    rw [composeVal, composeVal, h n, ih]

/-- Pixel `i` of the roll-out sees every plane byte shifted left `i`
times. -/
theorem rollBits_eq_map :
    ∀ (k : Nat) (bytes : Nat → Nat) (planes : Nat), (∀ p, bytes p < 256) →
      rollBits bytes planes k
        = (List.range k).map fun i =>
            composeVal (fun p => bytes p * 2 ^ i % 256) planes 0 := by
  intro k
  induction k with
  | zero => intro bytes planes _; rfl
  | succ k ih =>
    intro bytes planes hb
    rw [rollBits, List.range_succ_eq_map, List.map_cons, List.map_map]
    have hhead : composeVal bytes planes 0
        = composeVal (fun p => bytes p * 2 ^ 0 % 256) planes 0 := by
      refine composeVal_congr _ _ (fun p => ?_) planes 0
      simp [Nat.mod_eq_of_lt (hb p)]
    have htail : rollBits (shiftBytes bytes) planes k
        = (List.range k).map
            ((fun i => composeVal (fun p => bytes p * 2 ^ i % 256) planes 0) ∘ Nat.succ) := by
      rw [ih (shiftBytes bytes) planes (fun p => Nat.mod_lt _ (by norm_num))]
      refine List.map_congr_left (fun i _ => ?_)
      simp only [Function.comp_apply]
      refine composeVal_congr _ _ (fun p => ?_) planes 0
      simp only [shiftBytes]
      rw [Nat.mod_mul_mod, mul_assoc, ← pow_succ']
    rw [hhead, htail]

/-- The top bit of a byte shifted left `i` times is the byte's bit
`7 - i`. -/
theorem topBit_shift (b i : Nat) (hb : b < 256) (hi : i < 8) :
    topBit (b * 2 ^ i % 256) = b / 2 ^ (7 - i) % 2 := by
  interval_cases i <;> norm_num [topBit] <;> omega

/-- C2, amended: `ILBM_To_MCGA` deinterleaves with the hardcoded size
320×200 (width/8 = 40 bytes per plane row, 200 rows).  For every row `r`
and group `j` of 8 horizontal pixels, one byte is gathered from each plane
at offsets `p * 40` ahead of the group's base, and output pixel `i` of the
group has bit `p` (weight `2^p`) equal to bit `7 - i` of plane `p`'s
gathered byte, the highest-indexed plane contributing the most significant
bit; per row the source cursor advances `planes * 40` bytes and the
destination cursor advances 320 bytes. -/
theorem ILBM_deinterleave (src : Nat → Nat) (planes : Nat) :
    ILBM_To_MCGA src planes
      = (List.range 200).flatMap fun r =>
          (List.range 40).flatMap fun j =>
            (List.range 8).map fun i =>
              ((List.range planes).map fun p =>
                src (r * (40 * planes) + j + p * 40) % 256 / 2 ^ (7 - i) % 2 * 2 ^ p).sum := by
  unfold ILBM_To_MCGA
  refine congrArg (List.flatMap (List.range 200)) (funext fun r => ?_)
  unfold ilbmRow
  refine congrArg (List.flatMap (List.range 40)) (funext fun j => ?_)
  unfold ilbmGroup
  rw [rollBits_eq_map 8 _ planes (fun p => Nat.mod_lt _ (by norm_num))]
  refine List.map_congr_left fun i hi => ?_
  rw [List.mem_range] at hi
  rw [composeVal_eq]
  simp only [zero_mul, zero_add]
  refine congrArg List.sum (List.map_congr_left fun p _ => ?_)
  rw [topBit_shift _ i (Nat.mod_lt _ (by norm_num)) hi]

/-- C2, counterexample: the deinterleaver does not run "for the header's
width and height".  With a header declaring width 8 and height 1
(`W * H = 8` pixels), `ILBM_To_MCGA` still produces 64000 output bytes:
the 320×200 size is hardcoded and the header's dimensions are ignored. -/
theorem ilbm_fixed_size_cex :
    (ILBM_To_MCGA (fun _ => 0) 1).length = 64000
    ∧ (decodeHeaderIBM [0, 8, 0, 1, 0, 0, 0, 0, 1, 0, 0, 0, 0, 0, 10, 10, 0, 8, 0, 1]).W
        * (decodeHeaderIBM [0, 8, 0, 1, 0, 0, 0, 0, 1, 0, 0, 0, 0, 0, 10, 10, 0, 8, 0, 1]).H
      = 8
    ∧ (ILBM_To_MCGA (fun _ => 0) 1).length
      ≠ (decodeHeaderIBM [0, 8, 0, 1, 0, 0, 0, 0, 1, 0, 0, 0, 0, 0, 10, 10, 0, 8, 0, 1]).W
        * (decodeHeaderIBM [0, 8, 0, 1, 0, 0, 0, 0, 1, 0, 0, 0, 0, 0, 10, 10, 0, 8, 0, 1]).H := by
  refine ⟨ILBM_To_MCGA_length _ _, by decide, ?_⟩
  rw [ILBM_To_MCGA_length]
  decide

/-- Modelled from the spec: `MAKE_ID` (iff.h, outside these sources) packs
a 4-byte chunk tag; the exact packing order is irrelevant here, only that
distinct tags give distinct values. -/
def makeId (a b c d : Nat) : Nat :=
  ((a % 256 * 256 + b % 256) * 256 + c % 256) * 256 + d % 256

/-- "FORM" container magic. -/
def ID_FORM : Nat := makeId 70 79 82 77

/-- "ILBM" form tag. -/
def ID_ILBM : Nat := makeId 73 76 66 77

/-- "PBM " form tag. -/
def ID_PBM : Nat := makeId 80 66 77 32

/-- Abstraction of the opened picture file as `Load_Picture` consumes it.
Modelled from the spec: the container parser (`Read_Iff_Chunk`, outside
these sources) locates a chunk by identifier and returns its payload bytes
and length truncated to the requested size, or a "not found" result —
`bmhd = none` models a missing BMHD chunk, and `cmap`/`body` hold the
located chunk payloads (empty when absent). -/
structure IffFile where
  magic : Nat
  formTag : Nat
  bmhd : Option (List Nat)
  cmap : List Nat
  body : List Nat

/-- Distinguishes the `return FALSE` sites of `Load_Picture`. -/
inductive LoadError where
  | notPicture
  | missingHeader
  | unsupportedMasking
  | unsupportedCompression
  deriving DecidableEq

/-- The `int` result of `Load_Picture`: a failure (`FALSE`) with the
return site that produced it, or a success value. -/
inductive LoadStatus where
  | fail (e : LoadError)
  | ok (bplanes : Nat)
  deriving DecidableEq

/-- Observable outcome of a `Load_Picture` call: the returned status, the
bytes written through the palette pointer, and whether the
decompression/conversion branch (guarded by the BODY chunk read at
LOADPICT.CPP line 457) was executed. -/
structure LoadOutcome where
  status : LoadStatus
  paletteOut : List Nat
  decodeRan : Bool
  deriving DecidableEq

/-- `Load_Picture` (LOADPICT.CPP lines 330-552) on the IBM path with the
MCGA destination format: magic check with fallback to the raw loader
(`Load_Uncompress`, an external collaborator whose decoded byte count is
the parameter `uncompressResult`), form-tag check, BMHD decode and
validation, optional CMAP conversion (`*dest2++ = *source++ >> 2`, lines
429-431), and the BODY decode step guarded by the nonzero chunk-read
result.  The final statement of the function returns `bmhd.BPlanes`
whenever no early `return FALSE` fired. -/
def Load_Picture (f : IffFile) (destSize uncompressResult : Nat)
    (withPalette : Bool) : LoadOutcome :=
  if f.magic ≠ ID_FORM then
    { status := .ok (uncompressResult / 8000), paletteOut := [], decodeRan := false }
  else if f.formTag ≠ ID_ILBM ∧ f.formTag ≠ ID_PBM then
    { status := .fail .notPicture, paletteOut := [], decodeRan := false }
  else
    match f.bmhd with
    | none => { status := .fail .missingHeader, paletteOut := [], decodeRan := false }
    | some hb =>
      let bmhd := decodeHeaderIBM hb
      if 2 < bmhd.Masking then
        { status := .fail .unsupportedMasking, paletteOut := [], decodeRan := false }
      else if 1 < bmhd.Compression then
        { status := .fail .unsupportedCompression, paletteOut := [], decodeRan := false }
      else
        let pbytes := 2 ^ bmhd.BPlanes * 3
        let cmapRead := f.cmap.take pbytes
        let paletteOut :=
          if withPalette then
            if cmapRead.length ≠ 0 then cmapRead.map fun b => b % 256 / 4 else []
          else []
        { status := .ok bmhd.BPlanes
          paletteOut := paletteOut
          decodeRan := decide (min f.body.length destSize ≠ 0) }

/-- C5: for every parsed bitmap header, a masking value greater than 2
makes `Load_Picture` return the failure from the `bmhd.Masking > 2` check
(UnsupportedMasking, line 391), and — once masking is acceptable — a
compression value greater than 1 makes it return the failure from the
`bmhd.Compression > 1` check (UnsupportedCompression, line 392); in both
cases the whole load aborts with a failure result rather than proceeding
with a default. -/
theorem header_validation_rejects (f : IffFile) (destSize u : Nat)
    (pal : Bool) (hb : List Nat)
    (hm : f.magic = ID_FORM) (ht : f.formTag = ID_ILBM ∨ f.formTag = ID_PBM)
    (hh : f.bmhd = some hb) :
    (2 < (decodeHeaderIBM hb).Masking →
      (Load_Picture f destSize u pal).status = .fail .unsupportedMasking)
    ∧ ((decodeHeaderIBM hb).Masking ≤ 2 → 1 < (decodeHeaderIBM hb).Compression →
      (Load_Picture f destSize u pal).status = .fail .unsupportedCompression) := by
  constructor
  · intro hmask
    rcases ht with ht | ht <;>
      simp [Load_Picture, hm, ht, hh, hmask, ID_FORM, ID_ILBM, ID_PBM, makeId]
  · intro hmask hcomp
    have hmask2 : ¬ 2 < (decodeHeaderIBM hb).Masking := by omega
    rcases ht with ht | ht <;>
      simp [Load_Picture, hm, ht, hh, hmask2, hcomp, ID_FORM, ID_ILBM, ID_PBM, makeId]

/-- Witness for C5: a header with `Masking = Lasso (3)` fails as
UnsupportedMasking, and one with `Compression = 2` fails as
UnsupportedCompression. -/
theorem header_validation_rejects_witness :
    (Load_Picture
        ⟨ID_FORM, ID_ILBM, some [0, 8, 0, 1, 0, 0, 0, 0, 1, 3, 0, 0, 0, 0, 10, 10, 0, 8, 0, 1],
          [], []⟩ 100 0 false).status = .fail .unsupportedMasking
    ∧ (Load_Picture
        ⟨ID_FORM, ID_PBM, some [0, 8, 0, 1, 0, 0, 0, 0, 1, 0, 2, 0, 0, 0, 10, 10, 0, 8, 0, 1],
          [], []⟩ 100 0 false).status = .fail .unsupportedCompression :=
  ⟨(header_validation_rejects _ 100 0 false _ rfl (Or.inl rfl) rfl).1 (by decide),
   (header_validation_rejects _ 100 0 false _ rfl (Or.inr rfl) rfl).2
     (by decide) (by decide)⟩

/-- C6, counterexample: a BODY chunk read that yields fewer bytes than the
destination capacity but more than zero does NOT skip the
decompression/deinterleave step — the guard at LOADPICT.CPP line 457 only
tests the chunk-read result against zero.  Here the body yields 5 bytes
into a capacity of 10 and the decode branch still runs. -/
theorem short_body_not_skipped_cex :
    (Load_Picture
        ⟨ID_FORM, ID_ILBM, some [0, 8, 0, 1, 0, 0, 0, 0, 1, 0, 1, 0, 0, 0, 10, 10, 0, 8, 0, 1],
          [], [1, 2, 3, 4, 5]⟩ 10 0 false).decodeRan = true
    ∧ [1, 2, 3, 4, 5].length < 10 := by decide

/-- C6, amended: if the BODY chunk read yields zero bytes (in particular
when the chunk is absent), the decompression and deinterleave steps are
skipped entirely, yet `Load_Picture` still returns the header's bitplane
count as a success result. -/
theorem body_skip_on_empty_read (f : IffFile) (destSize u : Nat) (pal : Bool)
    (hb : List Nat)
    (hm : f.magic = ID_FORM) (ht : f.formTag = ID_ILBM ∨ f.formTag = ID_PBM)
    (hh : f.bmhd = some hb)
    (hmask : (decodeHeaderIBM hb).Masking ≤ 2)
    (hcomp : (decodeHeaderIBM hb).Compression ≤ 1) :
    (min f.body.length destSize = 0 →
      (Load_Picture f destSize u pal).decodeRan = false)
    ∧ (Load_Picture f destSize u pal).status = .ok (decodeHeaderIBM hb).BPlanes := by
  have hmask2 : ¬ 2 < (decodeHeaderIBM hb).Masking := by omega
  have hcomp2 : ¬ 1 < (decodeHeaderIBM hb).Compression := by omega
  constructor
  · intro hzero
    rcases ht with ht | ht <;>
      simp [Load_Picture, hm, ht, hh, hmask2, hcomp2, hzero, ID_FORM, ID_ILBM, ID_PBM, makeId]
  · rcases ht with ht | ht <;>
      simp [Load_Picture, hm, ht, hh, hmask2, hcomp2, ID_FORM, ID_ILBM, ID_PBM, makeId]

/-- Witness for the amended C6: an absent BODY chunk (zero-byte read)
skips the decode step and the call still reports 1 bitplane. -/
theorem body_skip_on_empty_read_witness :
    (Load_Picture
        ⟨ID_FORM, ID_ILBM, some [0, 8, 0, 1, 0, 0, 0, 0, 1, 0, 1, 0, 0, 0, 10, 10, 0, 8, 0, 1],
          [], []⟩ 100 7 false).decodeRan = false
    ∧ (Load_Picture
        ⟨ID_FORM, ID_ILBM, some [0, 8, 0, 1, 0, 0, 0, 0, 1, 0, 1, 0, 0, 0, 10, 10, 0, 8, 0, 1],
          [], []⟩ 100 7 false).status = .ok 1 :=
  ⟨(body_skip_on_empty_read _ 100 7 false
      [0, 8, 0, 1, 0, 0, 0, 0, 1, 0, 1, 0, 0, 0, 10, 10, 0, 8, 0, 1]
      rfl (Or.inl rfl) rfl (by decide) (by decide)).1 (by decide),
   (body_skip_on_empty_read _ 100 7 false
      [0, 8, 0, 1, 0, 0, 0, 0, 1, 0, 1, 0, 0, 0, 10, 10, 0, 8, 0, 1]
      rfl (Or.inl rfl) rfl (by decide) (by decide)).2⟩

/-- C8: when the first four file bytes are not the container magic "FORM",
`Load_Picture` delegates to the external raw/uncompressed loader and
returns that loader's decoded byte count divided by 8000 as the bitplane
count, touching neither the palette nor the decode step and without
interpreting the remaining file content (the result does not depend on any
other field of the file). -/
theorem raw_loader_fallback (f : IffFile) (destSize u : Nat) (pal : Bool)
    (h : f.magic ≠ ID_FORM) :
    Load_Picture f destSize u pal
      = { status := .ok (u / 8000), paletteOut := [], decodeRan := false } := by
  simp [Load_Picture, h]

/-- Witness for C8: a non-"FORM" file with a 16000-byte raw decode reports
2 bitplanes. -/
theorem raw_loader_fallback_witness :
    Load_Picture ⟨0, ID_ILBM, some [1, 2, 3], [4, 5], [6]⟩ 5 16000 true
      = { status := .ok (16000 / 8000), paletteOut := [], decodeRan := false } :=
  raw_loader_fallback _ 5 16000 true (by decide)

/-- C9: every palette byte read from the CMAP chunk is written to the
destination palette as `b >> 2`, exactly one output byte per input byte,
and the conversion has no failure path: when the chunk is absent or
shorter than the `(1 << BPlanes) * 3` bytes requested, only the bytes
actually read are converted and the load still succeeds with the header's
bitplane count. -/
theorem palette_six_bit_truncation (f : IffFile) (destSize u : Nat)
    (hb : List Nat)
    (hm : f.magic = ID_FORM) (ht : f.formTag = ID_ILBM ∨ f.formTag = ID_PBM)
    (hh : f.bmhd = some hb)
    (hmask : (decodeHeaderIBM hb).Masking ≤ 2)
    (hcomp : (decodeHeaderIBM hb).Compression ≤ 1) :
    (Load_Picture f destSize u true).paletteOut
        = (f.cmap.take (2 ^ (decodeHeaderIBM hb).BPlanes * 3)).map (fun b => b % 256 / 4)
    ∧ (Load_Picture f destSize u true).paletteOut.length
        = (f.cmap.take (2 ^ (decodeHeaderIBM hb).BPlanes * 3)).length
    ∧ (Load_Picture f destSize u true).status = .ok (decodeHeaderIBM hb).BPlanes := by
  have hmask2 : ¬ 2 < (decodeHeaderIBM hb).Masking := by omega
  have hcomp2 : ¬ 1 < (decodeHeaderIBM hb).Compression := by omega
  have key : (Load_Picture f destSize u true).paletteOut
      = (f.cmap.take (2 ^ (decodeHeaderIBM hb).BPlanes * 3)).map (fun b => b % 256 / 4) := by
    by_cases hn : (f.cmap.take (2 ^ (decodeHeaderIBM hb).BPlanes * 3)).length = 0
    · have hnil : f.cmap.take (2 ^ (decodeHeaderIBM hb).BPlanes * 3) = [] :=
        List.length_eq_zero.mp hn
      rcases ht with ht | ht <;>
        simp [Load_Picture, hm, ht, hh, hmask2, hcomp2, hnil, ID_FORM, ID_ILBM, ID_PBM, makeId]
    · rcases ht with ht | ht <;>
        simp [Load_Picture, hm, ht, hh, hmask2, hcomp2, hn, ID_FORM, ID_ILBM, ID_PBM, makeId]
  refine ⟨key, ?_, ?_⟩
  · rw [key, List.length_map]
  · rcases ht with ht | ht <;>
      simp [Load_Picture, hm, ht, hh, hmask2, hcomp2, ID_FORM, ID_ILBM, ID_PBM, makeId]

/-- Witness for C9: a 3-byte CMAP (shorter than the 6 bytes requested for
one bitplane) is converted byte-for-byte with `>> 2` and the load still
succeeds. -/
theorem palette_six_bit_truncation_witness :
    (Load_Picture
        ⟨ID_FORM, ID_ILBM, some [0, 8, 0, 1, 0, 0, 0, 0, 1, 0, 1, 0, 0, 0, 10, 10, 0, 8, 0, 1],
          [255, 16, 3], []⟩ 100 0 true).paletteOut
      = ([255, 16, 3].take (2 ^ 1 * 3)).map (fun b => b % 256 / 4)
    ∧ (Load_Picture
        ⟨ID_FORM, ID_ILBM, some [0, 8, 0, 1, 0, 0, 0, 0, 1, 0, 1, 0, 0, 0, 10, 10, 0, 8, 0, 1],
          [255, 16, 3], []⟩ 100 0 true).paletteOut.length
      = ([255, 16, 3].take (2 ^ 1 * 3)).length
    ∧ (Load_Picture
        ⟨ID_FORM, ID_ILBM, some [0, 8, 0, 1, 0, 0, 0, 0, 1, 0, 1, 0, 0, 0, 10, 10, 0, 8, 0, 1],
          [255, 16, 3], []⟩ 100 0 true).status = .ok 1 :=
  palette_six_bit_truncation _ 100 0
    [0, 8, 0, 1, 0, 0, 0, 0, 1, 0, 1, 0, 0, 0, 10, 10, 0, 8, 0, 1]
    rfl (Or.inl rfl) rfl (by decide) (by decide)

end LoadPict
